import Mathlib

/-!
Verification development for the purplesky Ranking & Consensus engine.

The repository is a Qwik web application whose numeric core (feed sorting
strategies and a Polis-style consensus analysis) lives partly in the UI
routes (`src/routes/forum/[id]/index.tsx`, `src/routes/post/[uri]/index.tsx`,
`src/routes/consensus/index.tsx`) and partly in a Rust/WASM module
(`wasm/src/lib.rs`) with a JS fallback (`src/lib/wasm-bridge.ts`).

Definitions below are shallow embeddings: functions present in the
TypeScript sources are translated directly; the WASM-side operations
(vote-matrix construction, per-statement statistics, clustering, the Wilson
and trending sorts) are modelled from the specification, as marked in each
doc comment.
-/

namespace PurpleSky

/-- One ternary vote event, as produced by the consensus page
(`src/routes/consensus/index.tsx`): a participant identifier, a statement
identifier, and a value in {-1, 0, 1}. -/
structure VoteEvent where
  user_id : String
  statement_id : String
  value : Int
deriving DecidableEq, Repr

/-- Key identifying the (participant, statement) pair of a vote event. -/
def voteKey (e : VoteEvent) : String × String := (e.user_id, e.statement_id)

/-- Modelled from the spec: one step of vote-matrix construction
(`wasm/src/lib.rs` is not in the source tree). If a vote with the same
(participant, statement) key is already present it is replaced in place
(last write wins); otherwise the event is appended. -/
def insertVote (acc : List VoteEvent) (e : VoteEvent) : List VoteEvent :=
  if acc.any (fun a => voteKey a = voteKey e) then
    acc.map (fun a => if voteKey a = voteKey e then e else a)
  else
    acc ++ [e]

/-- Modelled from the spec: the normalized vote matrix, built by folding
the raw event list left-to-right (event arrival order) through
`insertVote`, so duplicates resolve last-write-wins. -/
def buildMatrix (events : List VoteEvent) : List VoteEvent :=
  events.foldl insertVote []

/-- Lookup of a participant's vote on a statement in a vote list:
the value of the first entry with the matching key, if any. -/
def lookupVote (m : List VoteEvent) (u s : String) : Option Int :=
  (m.find? (fun e => voteKey e = (u, s))).map (·.value)

/-- Value of the last event in arrival order whose key is (u, s):
the specification's "last write wins" reference semantics. -/
def lastWins : List VoteEvent → String → String → Option Int
  | [], _, _ => none
  | e :: rest, u, s =>
    match lastWins rest u s with
    | some v => some v
    | none => if voteKey e = (u, s) then some e.value else none

lemma countP_replace (acc : List VoteEvent) (e : VoteEvent) (u s : String) :
    (acc.map (fun a => if voteKey a = voteKey e then e else a)).countP
        (fun a => voteKey a = (u, s))
      = acc.countP (fun a => voteKey a = (u, s)) := by
  rw [List.countP_map]
  apply List.countP_congr
  intro a _
  simp only [Function.comp_apply]
  by_cases hae : voteKey a = voteKey e
  · rw [if_pos hae, ← hae]
  · rw [if_neg hae]

lemma countP_insertVote_le (acc : List VoteEvent) (e : VoteEvent) (u s : String)
    (h : acc.countP (fun a => voteKey a = (u, s)) ≤ 1) :
    (insertVote acc e).countP (fun a => voteKey a = (u, s)) ≤ 1 := by
  unfold insertVote
  split
  · rw [countP_replace]
    exact h
  · rename_i hany
    rw [List.countP_append]
    by_cases hk : voteKey e = (u, s)
    · -- no element of acc has key e, so the acc part counts 0
      have hzero : acc.countP (fun a => voteKey a = (u, s)) = 0 := by
        rw [List.countP_eq_zero]
        intro a ha hmatch
        apply hany
        rw [List.any_eq_true]
        refine ⟨a, ha, ?_⟩
        simp only [decide_eq_true_eq] at hmatch ⊢
        rw [hmatch, hk]
      simp [hzero, List.countP_cons, hk]
    · have hone : List.countP (fun a => decide (voteKey a = (u, s))) [e] = 0 := by
        simp [hk]
      rw [hone]
      simpa using h

lemma lookupVote_insertVote (acc : List VoteEvent) (e : VoteEvent) (u s : String) :
    lookupVote (insertVote acc e) u s
      = if voteKey e = (u, s) then some e.value else lookupVote acc u s := by
  unfold insertVote lookupVote
  split
  · rename_i hany
    by_cases hk : voteKey e = (u, s)
    · rw [if_pos hk]
      -- the first element of acc whose key is voteKey e is replaced by e,
      -- and it is also the first element matching (u, s)
      induction acc with
      | nil => simp at hany
      | cons a rest ih =>
        by_cases hae : voteKey a = voteKey e
        · simp only [List.map_cons, if_pos hae, List.find?_cons]
          rw [show (decide (voteKey e = (u, s))) = true by simp [hk]]
          simp
        · have hnot : ¬ voteKey a = (u, s) := by rw [← hk]; exact hae
          simp only [List.map_cons, if_neg hae, List.find?_cons]
          rw [show (decide (voteKey a = (u, s))) = false by simp [hnot]]
          simp only []
          have hany' : rest.any (fun x => voteKey x = voteKey e) = true := by
            rcases List.any_eq_true.mp hany with ⟨x, hx, hxk⟩
            rcases List.mem_cons.mp hx with rfl | hx'
            · exact absurd (by simpa using hxk) hae
            · exact List.any_eq_true.mpr ⟨x, hx', hxk⟩
          simpa using ih hany'
    · rw [if_neg hk]
      -- replacement does not touch the (u, s)-relevant entries
      induction acc with
      | nil => simp
      | cons a rest ih =>
        by_cases hae : voteKey a = voteKey e
        · have hnot : ¬ voteKey a = (u, s) := fun hh => hk (hae ▸ hh)
          simp only [List.map_cons, if_pos hae, List.find?_cons]
          rw [show (decide (voteKey e = (u, s))) = false by simp [hk]]
          rw [show (decide (voteKey a = (u, s))) = false by simp [hnot]]
          by_cases hrest : rest.any (fun x => voteKey x = voteKey e) = true
          · simpa using ih hrest
          · -- even without existing matches the map is the identity on rest
            have : rest.map (fun x => if voteKey x = voteKey e then e else x) = rest := by
              conv_rhs => rw [← List.map_id rest]
              apply List.map_congr_left
              intro x hx
              simp only [id_eq]
              rw [if_neg]
              intro hxe
              exact hrest (List.any_eq_true.mpr ⟨x, hx, by simpa using hxe⟩)
            simp [this]
        · simp only [List.map_cons, if_neg hae, List.find?_cons]
          by_cases hau : voteKey a = (u, s)
          · rw [show (decide (voteKey a = (u, s))) = true by simp [hau]]
          · rw [show (decide (voteKey a = (u, s))) = false by simp [hau]]
            by_cases hrest : rest.any (fun x => voteKey x = voteKey e) = true
            · simpa using ih hrest
            · have : rest.map (fun x => if voteKey x = voteKey e then e else x) = rest := by
                conv_rhs => rw [← List.map_id rest]
                apply List.map_congr_left
                intro x hx
                simp only [id_eq]
                rw [if_neg]
                intro hxe
                exact hrest (List.any_eq_true.mpr ⟨x, hx, by simpa using hxe⟩)
              simp [this]
  · rename_i hany
    by_cases hk : voteKey e = (u, s)
    · rw [if_pos hk]
      have hnone : List.find? (fun x => voteKey x = (u, s)) acc = none := by
        rw [List.find?_eq_none]
        intro x hx hxk
        exact hany (List.any_eq_true.mpr ⟨x, hx, by
          simp only [decide_eq_true_eq] at hxk ⊢
          rw [hxk, hk]⟩)
      rw [List.find?_append, hnone]
      simp [hk]
    · rw [if_neg hk]
      rw [List.find?_append]
      rcases hfind : List.find? (fun x => voteKey x = (u, s)) acc with _ | x
      · simp [hk]
      · simp

lemma lookupVote_foldl (events : List VoteEvent) (u s : String) :
    ∀ acc : List VoteEvent,
      lookupVote (events.foldl insertVote acc) u s
        = match lastWins events u s with
          | some v => some v
          | none => lookupVote acc u s := by
  induction events with
  | nil => intro acc; simp [lastWins]
  | cons e rest ih =>
    intro acc
    rw [List.foldl_cons, ih (insertVote acc e), lookupVote_insertVote]
    show _ = (match lastWins (e :: rest) u s with
      | some v => some v
      | none => lookupVote acc u s)
    rw [show lastWins (e :: rest) u s
        = (match lastWins rest u s with
           | some v => some v
           | none => if voteKey e = (u, s) then some e.value else none) from rfl]
    rcases lastWins rest u s with _ | v
    · by_cases hk : voteKey e = (u, s) <;> simp [hk]
    · simp

lemma countP_buildMatrix_le (events : List VoteEvent) (u s : String) :
    (buildMatrix events).countP (fun a => voteKey a = (u, s)) ≤ 1 := by
  unfold buildMatrix
  have : ∀ acc : List VoteEvent,
      acc.countP (fun a => voteKey a = (u, s)) ≤ 1 →
      (events.foldl insertVote acc).countP (fun a => voteKey a = (u, s)) ≤ 1 := by
    induction events with
    | nil => intro acc h; simpa using h
    | cons e rest ih =>
      intro acc h
      rw [List.foldl_cons]
      exact ih _ (countP_insertVote_le acc e u s h)
  exact this [] (by simp)

/-- The claim C5: for every input list of vote events, the vote matrix
underlying analyzeConsensus retains at most one vote per
(participant_id, statement_id) pair, and duplicates are resolved by
last-write-wins in event arrival order: the retained value for a pair is
exactly the value of the last event in the list carrying that pair. -/
theorem buildMatrix_dedup_lastWins (events : List VoteEvent) (u s : String) :
    (buildMatrix events).countP (fun a => voteKey a = (u, s)) ≤ 1
    ∧ lookupVote (buildMatrix events) u s = lastWins events u s := by
  refine ⟨countP_buildMatrix_le events u s, ?_⟩
  rw [buildMatrix, lookupVote_foldl events u s []]
  rcases lastWins events u s with _ | v
  · simp [lookupVote]
  · simp

/-- Participant ids occurring in a vote list, deduplicated. -/
def participantsOf (m : List VoteEvent) : List String :=
  (m.map (·.user_id)).dedup

/-- Statement ids occurring in a vote list, deduplicated. -/
def statementsOf (m : List VoteEvent) : List String :=
  (m.map (·.statement_id)).dedup

/-- Per-statement result record of the consensus analysis
(data model of the spec's StatementResult). -/
structure StatementResult where
  statement_id : String
  agree_count : ℕ
  disagree_count : ℕ
  pass_count : ℕ
  total_votes : ℕ
  agreement_ratio : ℚ
  divisiveness : ℚ
deriving DecidableEq, Repr

/-- Modelled from the spec: per-statement statistics over the deduplicated
vote matrix (`wasm/src/lib.rs` SECTION 4 is not in the source tree).
Counts agree (+1), disagree (-1) and pass (0) votes; the agreement ratio is
agree/(agree+disagree) when that denominator is positive and 0 otherwise,
and the divisiveness is 1 - 2*|ratio - 1/2| under the same guard. -/
def statementStats (m : List VoteEvent) (s : String) : StatementResult :=
  let vs := m.filter (fun e => e.statement_id = s)
  let a := (vs.filter (fun e => e.value = 1)).length
  let d := (vs.filter (fun e => e.value = -1)).length
  let p := (vs.filter (fun e => e.value = 0)).length
  let ratio : ℚ := if a + d = 0 then 0 else (a : ℚ) / ((a : ℚ) + (d : ℚ))
  let divis : ℚ := if a + d = 0 then 0 else 1 - 2 * |ratio - 1/2|
  { statement_id := s, agree_count := a, disagree_count := d, pass_count := p,
    total_votes := vs.length, agreement_ratio := ratio, divisiveness := divis }

/-- An opinion cluster: its small integer id, its member participant ids,
and the mean over members of each member's personal rate of agree votes. -/
structure Cluster where
  cluster_id : ℕ
  member_ids : List String
  avg_agreement : ℚ
deriving DecidableEq, Repr

/-- Aggregate result of the consensus analysis
(data model of the spec's ConsensusResult). -/
structure ConsensusResult where
  total_participants : ℕ
  statements : List StatementResult
  clusters : List Cluster
  cluster_count : ℕ
deriving DecidableEq, Repr

/-- Ceiling of the square root of p/2 over the naturals: the least m with
2*m^2 >= p. -/
def ceilSqrtHalf (p : ℕ) : ℕ :=
  let m := Nat.sqrt ((p + 1) / 2)
  if p ≤ 2 * m * m then m else m + 1

/-- Modelled from the spec: the cluster-count policy
k = min(4, ceil(sqrt(participant_count / 2))) with floor 1, reduced to the
participant count when there are fewer participants than k. -/
def clusterK (pcount : ℕ) : ℕ :=
  min (max 1 (min 4 (ceilSqrtHalf pcount))) pcount

/-- Voting vector of a participant: one rational coordinate per statement,
the explicit vote value where present and 0 (neutral) for a missing vote. -/
def voteVector (m : List VoteEvent) (stmts : List String) (u : String) : List ℚ :=
  stmts.map (fun s => ((lookupVote m u s).getD 0 : Int))

/-- Squared euclidean distance between two voting vectors. -/
def sqDist (v w : List ℚ) : ℚ :=
  (List.zipWith (fun a b => (a - b) ^ 2) v w).sum

/-- Index (first minimal) of the centroid nearest to a voting vector. -/
def assignCluster (cents : List (List ℚ)) (v : List ℚ) : ℕ :=
  ((List.range cents.length).argmin (fun c => sqDist v (cents.getD c []))).getD 0

/-- Coordinatewise mean of a nonempty collection of voting vectors. -/
def meanVec (vs : List (List ℚ)) (dim : ℕ) : List ℚ :=
  (List.range dim).map (fun i => (vs.map (fun v => v.getD i 0)).sum / (vs.length : ℚ))

/-- Modelled from the spec: one k-means iteration over the voting vectors.
Each centroid moves to the mean of the vectors currently assigned to it;
a centroid with no assigned vectors stays in place. -/
def kmeansStep (vecs : List (List ℚ)) (dim : ℕ) (cents : List (List ℚ)) :
    List (List ℚ) :=
  (List.range cents.length).map (fun c =>
    let members := vecs.filter (fun v => assignCluster cents v = c)
    if members.isEmpty then cents.getD c [] else meanVec members dim)

/-- Number of k-means refinement iterations used by the model. -/
def kmeansIters : ℕ := 10

/-- Personal rate of agree votes of a participant over the votes they cast. -/
def agreeRate (m : List VoteEvent) (u : String) : ℚ :=
  let mine := m.filter (fun e => e.user_id = u)
  if mine.length = 0 then 0
  else ((mine.filter (fun e => e.value = 1)).length : ℚ) / (mine.length : ℚ)

/-- Modelled from the spec: the k-means centroids after `kmeansIters`
refinement iterations, started from the voting vectors of the first
k participants. -/
def finalCentroids (m : List VoteEvent) : List (List ℚ) :=
  let ps := participantsOf m
  let ss := statementsOf m
  let k := clusterK ps.length
  (fun cs => kmeansStep (ps.map (voteVector m ss)) ss.length cs)^[kmeansIters]
    ((ps.take k).map (voteVector m ss))

/-- Final cluster index assigned to a participant: the nearest of the final
centroids to the participant's voting vector. -/
def assignOf (m : List VoteEvent) (u : String) : ℕ :=
  assignCluster (finalCentroids m) (voteVector m (statementsOf m) u)

/-- Modelled from the spec: the opinion clusters, one per cluster index
below clusterK, each holding the participants assigned to it and their mean
agree rate. -/
def consensusClusters (m : List VoteEvent) : List Cluster :=
  (List.range (clusterK (participantsOf m).length)).map (fun c =>
    let members := (participantsOf m).filter (fun u => assignOf m u = c)
    { cluster_id := c
      member_ids := members
      avg_agreement :=
        if members.length = 0 then 0
        else (members.map (agreeRate m)).sum / (members.length : ℚ) })

/-- Modelled from the spec: the full consensus analysis
(`analyzeConsensus` of `src/lib/wasm-bridge.ts` / `wasm/src/lib.rs`, absent
from the source tree). Builds the deduplicated vote matrix, computes one
StatementResult per statement, and partitions the participants into
k = clusterK clusters by a k-means-style grouping of their voting vectors. -/
def analyzeConsensus (events : List VoteEvent) : ConsensusResult :=
  let m := buildMatrix events
  { total_participants := (participantsOf m).length
    statements := (statementsOf m).map (statementStats m)
    clusters := consensusClusters m
    cluster_count := clusterK (participantsOf m).length }

/-- The claim C6: analyzeConsensus applied to the empty vote list returns
total_participants = 0, an empty statements sequence and cluster_count = 0
(and, being a total function, raises no error). -/
theorem analyzeConsensus_empty :
    (analyzeConsensus []).total_participants = 0
    ∧ (analyzeConsensus []).statements = []
    ∧ (analyzeConsensus []).cluster_count = 0
    ∧ (analyzeConsensus []).clusters = [] := by
  refine ⟨rfl, rfl, ?_, ?_⟩ <;> decide


lemma statementStats_ratio_eq (m : List VoteEvent) (s : String) :
    (statementStats m s).agreement_ratio
      = if (statementStats m s).agree_count + (statementStats m s).disagree_count = 0
        then 0
        else ((statementStats m s).agree_count : ℚ)
              / (((statementStats m s).agree_count : ℚ)
                  + ((statementStats m s).disagree_count : ℚ)) := rfl

lemma statementStats_divis_eq (m : List VoteEvent) (s : String) :
    (statementStats m s).divisiveness
      = if (statementStats m s).agree_count + (statementStats m s).disagree_count = 0
        then 0
        else 1 - 2 * |(statementStats m s).agreement_ratio - 1/2| := rfl

/-- Fixture: ten participants voting on one statement, 6 agree, 2 disagree,
2 pass (the worked example of the spec). -/
def exVotes622 : List VoteEvent :=
  [ ⟨"p0", "s", 1⟩, ⟨"p1", "s", 1⟩, ⟨"p2", "s", 1⟩, ⟨"p3", "s", 1⟩,
    ⟨"p4", "s", 1⟩, ⟨"p5", "s", 1⟩, ⟨"p6", "s", -1⟩, ⟨"p7", "s", -1⟩,
    ⟨"p8", "s", 0⟩, ⟨"p9", "s", 0⟩ ]

/-- The claim C1: for every statement, agreement_ratio is
agree/(agree+disagree) when that denominator is positive and 0 otherwise,
and divisiveness is 1 - 2*|agreement_ratio - 1/2| when the denominator is
positive and 0 otherwise; and the 6-agree/2-disagree/2-pass example yields
agreement_ratio 3/4 and divisiveness 1/2. -/
theorem statement_stats_spec :
    (∀ (m : List VoteEvent) (s : String),
      (0 < (statementStats m s).agree_count + (statementStats m s).disagree_count →
        (statementStats m s).agreement_ratio
          = ((statementStats m s).agree_count : ℚ)
              / (((statementStats m s).agree_count : ℚ)
                  + ((statementStats m s).disagree_count : ℚ))
        ∧ (statementStats m s).divisiveness
          = 1 - 2 * |(statementStats m s).agreement_ratio - 1/2|)
      ∧ ((statementStats m s).agree_count + (statementStats m s).disagree_count = 0 →
        (statementStats m s).agreement_ratio = 0
        ∧ (statementStats m s).divisiveness = 0))
    ∧ (analyzeConsensus exVotes622).statements
        = [{ statement_id := "s", agree_count := 6, disagree_count := 2,
             pass_count := 2, total_votes := 10,
             agreement_ratio := 3/4, divisiveness := 1/2 }] := by
  constructor
  · intro m s
    constructor
    · intro h
      have hne : ¬ ((statementStats m s).agree_count
          + (statementStats m s).disagree_count = 0) := by omega
      rw [statementStats_ratio_eq, statementStats_divis_eq, if_neg hne, if_neg hne,
        statementStats_ratio_eq, if_neg hne]
      exact ⟨rfl, rfl⟩
    · intro h
      rw [statementStats_ratio_eq, statementStats_divis_eq, if_pos h, if_pos h]
      exact ⟨rfl, rfl⟩
  · have hb : buildMatrix exVotes622 = exVotes622 := by decide
    have hmap : (analyzeConsensus exVotes622).statements
        = (statementsOf (buildMatrix exVotes622)).map
            (statementStats (buildMatrix exVotes622)) := rfl
    rw [hmap, hb, show statementsOf exVotes622 = ["s"] from by decide]
    have ha : (statementStats exVotes622 "s").agree_count = 6 := by decide
    have hd : (statementStats exVotes622 "s").disagree_count = 2 := by decide
    have hr : (statementStats exVotes622 "s").agreement_ratio = 3/4 := by
      rw [statementStats_ratio_eq, ha, hd]
      norm_num
    have hdv : (statementStats exVotes622 "s").divisiveness = 1/2 := by
      rw [statementStats_divis_eq, ha, hd, hr, if_neg (by norm_num : ¬(6 + 2 = 0))]
      have habs : |(3:ℚ)/4 - 1/2| = 1/4 := by
        rw [abs_of_nonneg] <;> norm_num
      rw [habs]
      norm_num
    have : statementStats exVotes622 "s"
        = { statement_id := "s", agree_count := 6, disagree_count := 2,
            pass_count := 2, total_votes := 10,
            agreement_ratio := 3/4, divisiveness := 1/2 } := by
      rcases hdef : statementStats exVotes622 "s" with ⟨sid, a, d, p, t, r, dv⟩
      rw [hdef] at ha hd hr hdv
      have hsid : sid = "s" := by
        rw [show sid = (statementStats exVotes622 "s").statement_id from by rw [hdef]]
        rfl
      have hp : p = 2 := by
        rw [show p = (statementStats exVotes622 "s").pass_count from by rw [hdef]]
        decide
      have ht : t = 10 := by
        rw [show t = (statementStats exVotes622 "s").total_votes from by rw [hdef]]
        decide
      simp_all
    rw [List.map_cons, List.map_nil, this]

/-- Witness for the hypotheses of `statement_stats_spec`: the guarded parts
hold at the 6/2/2 fixture, whose denominator is positive. -/
theorem statement_stats_spec_witness :
    0 < (statementStats exVotes622 "s").agree_count
        + (statementStats exVotes622 "s").disagree_count
    ∧ (statementStats exVotes622 "s").agreement_ratio
        = ((statementStats exVotes622 "s").agree_count : ℚ)
            / (((statementStats exVotes622 "s").agree_count : ℚ)
                + ((statementStats exVotes622 "s").disagree_count : ℚ)) :=
  ⟨by decide, ((statement_stats_spec.1 exVotes622 "s").1 (by decide)).1⟩

lemma kmeansStep_length (vecs : List (List ℚ)) (dim : ℕ) (cents : List (List ℚ)) :
    (kmeansStep vecs dim cents).length = cents.length := by
  simp [kmeansStep]

lemma finalCentroids_length (m : List VoteEvent) :
    (finalCentroids m).length = clusterK (participantsOf m).length := by
  unfold finalCentroids
  have hiter : ∀ (n : ℕ) (cs : List (List ℚ)),
      ((fun cs => kmeansStep ((participantsOf m).map
          (voteVector m (statementsOf m))) (statementsOf m).length cs)^[n] cs).length
        = cs.length := by
    intro n
    induction n with
    | zero => intro cs; rfl
    | succ j ih =>
      intro cs
      rw [Function.iterate_succ_apply, ih, kmeansStep_length]
  rw [hiter]
  rw [List.length_map, List.length_take]
  exact Nat.min_eq_left (Nat.min_le_right _ _)

lemma clusterK_pos (p : ℕ) (h : 0 < p) : 0 < clusterK p := by
  unfold clusterK
  have h1 : 0 < max 1 (min 4 (ceilSqrtHalf p)) := by omega
  omega

lemma assignCluster_lt (cents : List (List ℚ)) (v : List ℚ)
    (h : 0 < cents.length) : assignCluster cents v < cents.length := by
  unfold assignCluster
  rcases hmin : (List.range cents.length).argmin
      (fun c => sqDist v (cents.getD c [])) with _ | a
  · exfalso
    rw [List.argmin_eq_none] at hmin
    have := List.range_eq_nil.mp hmin
    omega
  · have := List.argmin_mem hmin
    rw [List.mem_range] at this
    simpa using this

lemma insertVote_ne_nil (acc : List VoteEvent) (e : VoteEvent) (h : acc ≠ []) :
    insertVote acc e ≠ [] := by
  unfold insertVote
  split
  · simpa using h
  · simp

lemma foldl_insertVote_ne_nil (l : List VoteEvent) :
    ∀ acc : List VoteEvent, acc ≠ [] → l.foldl insertVote acc ≠ [] := by
  induction l with
  | nil => intro acc h; simpa using h
  | cons e rest ih =>
    intro acc h
    rw [List.foldl_cons]
    exact ih _ (insertVote_ne_nil acc e h)

lemma buildMatrix_ne_nil (events : List VoteEvent) (h : events ≠ []) :
    buildMatrix events ≠ [] := by
  rcases events with _ | ⟨e, rest⟩
  · exact absurd rfl h
  · rw [buildMatrix, List.foldl_cons]
    apply foldl_insertVote_ne_nil
    simp [insertVote]

lemma participantsOf_ne_nil (m : List VoteEvent) (h : m ≠ []) :
    participantsOf m ≠ [] := by
  rcases m with _ | ⟨e, rest⟩
  · exact absurd rfl h
  · unfold participantsOf
    intro hd
    have : e.user_id ∈ ((e :: rest).map (·.user_id)).dedup := by
      rw [List.mem_dedup]
      exact List.mem_map_of_mem _ (List.mem_cons_self e rest)
    rw [hd] at this
    simp at this

lemma countP_range_eq_one (k a : ℕ) (h : a < k) :
    (List.range k).countP (fun c => a = c) = 1 := by
  induction k with
  | zero => omega
  | succ n ih =>
    rw [List.range_succ, List.countP_append]
    rcases Nat.lt_succ_iff_lt_or_eq.mp h with h' | rfl
    · rw [ih h']
      have hz : List.countP (fun c => decide (a = c)) [n] = 0 := by
        have : ¬ (a = n) := by omega
        simp [this]
      rw [hz]
    · have hz : (List.range a).countP (fun c => decide (a = c)) = 0 := by
        rw [List.countP_eq_zero]
        intro c hc hac
        rw [List.mem_range] at hc
        simp only [decide_eq_true_eq] at hac
        omega
      rw [hz]
      simp

lemma assignOf_lt (m : List VoteEvent) (u : String) (h : m ≠ []) :
    assignOf m u < clusterK (participantsOf m).length := by
  rw [← finalCentroids_length]
  apply assignCluster_lt
  rw [finalCentroids_length]
  apply clusterK_pos
  have := participantsOf_ne_nil m h
  exact List.length_pos.mpr this

/-- The claim C7: for a non-empty vote list the clusters of analyzeConsensus
partition the participants (every participant is in exactly one cluster's
member_ids, and the union of the members equals the participant set), and
with zero votes overall the cluster count is 0 and the cluster list empty,
without error. -/
theorem consensus_clusters_partition :
    ((analyzeConsensus []).cluster_count = 0 ∧ (analyzeConsensus []).clusters = [])
    ∧ (∀ events : List VoteEvent, events ≠ [] →
      (∀ p, p ∈ participantsOf (buildMatrix events) →
        ((analyzeConsensus events).clusters.countP
          (fun c => decide (p ∈ c.member_ids))) = 1)
      ∧ (∀ p, (∃ c ∈ (analyzeConsensus events).clusters, p ∈ c.member_ids)
            ↔ p ∈ participantsOf (buildMatrix events))) := by
  refine ⟨⟨by decide, by decide⟩, ?_⟩
  intro events hne
  have hm : buildMatrix events ≠ [] := buildMatrix_ne_nil events hne
  have hcl : (analyzeConsensus events).clusters
      = consensusClusters (buildMatrix events) := rfl
  constructor
  · intro p hp
    rw [hcl]
    unfold consensusClusters
    rw [List.countP_map]
    have heq : (List.range (clusterK (participantsOf (buildMatrix events)).length)).countP
          ((fun c => decide (p ∈ c.member_ids)) ∘ (fun c =>
            let members := (participantsOf (buildMatrix events)).filter
              (fun u => assignOf (buildMatrix events) u = c)
            ({ cluster_id := c
               member_ids := members
               avg_agreement :=
                 if members.length = 0 then 0
                 else (members.map (agreeRate (buildMatrix events))).sum
                      / (members.length : ℚ) } : Cluster)))
        = (List.range (clusterK (participantsOf (buildMatrix events)).length)).countP
            (fun c => decide (assignOf (buildMatrix events) p = c)) := by
      apply List.countP_congr
      intro c hc
      simp only [Function.comp_apply]
      rw [decide_eq_true_eq, decide_eq_true_eq]
      show p ∈ (participantsOf (buildMatrix events)).filter
          (fun u => assignOf (buildMatrix events) u = c) ↔ _
      rw [List.mem_filter]
      simp [hp]
    rw [heq]
    exact countP_range_eq_one _ _ (assignOf_lt (buildMatrix events) p hm)
  · intro p
    rw [hcl]
    unfold consensusClusters
    constructor
    · rintro ⟨c, hcmem, hpmem⟩
      rcases List.mem_map.mp hcmem with ⟨i, hi, rfl⟩
      have hfil : p ∈ (participantsOf (buildMatrix events)).filter
          (fun u => assignOf (buildMatrix events) u = i) := hpmem
      exact (List.mem_filter.mp hfil).1
    · intro hp
      refine ⟨_, List.mem_map_of_mem _
        (List.mem_range.mpr (assignOf_lt (buildMatrix events) p hm)), ?_⟩
      show p ∈ (participantsOf (buildMatrix events)).filter
          (fun u => assignOf (buildMatrix events) u = assignOf (buildMatrix events) p)
      rw [List.mem_filter]
      exact ⟨hp, by simp⟩

/-- Witness for `consensus_clusters_partition`: at the 6/2/2 fixture the
participant p0 lies in exactly one cluster. -/
theorem consensus_clusters_partition_witness :
    ((analyzeConsensus exVotes622).clusters.countP
      (fun c => decide ("p0" ∈ c.member_ids))) = 1 :=
  (consensus_clusters_partition.2 exVotes622 (by decide)).1 "p0" (by decide)

lemma foldl_insertVote_pred (P : VoteEvent → Prop) :
    ∀ (l acc : List VoteEvent), (∀ y ∈ acc, P y) → (∀ e ∈ l, P e) →
      ∀ x ∈ l.foldl insertVote acc, P x := by
  intro l
  induction l with
  | nil => intro acc hacc _ x hx; exact hacc x hx
  | cons e rest ih =>
    intro acc hacc hl x hx
    rw [List.foldl_cons] at hx
    refine ih (insertVote acc e) ?_ (fun y hy => hl y (List.mem_cons_of_mem e hy)) x hx
    intro y hy
    unfold insertVote at hy
    split at hy
    · rcases List.mem_map.mp hy with ⟨a, ha, rfl⟩
      by_cases hae : voteKey a = voteKey e
      · rw [if_pos hae]
        exact hl e (List.mem_cons_self e rest)
      · rw [if_neg hae]
        exact hacc a ha
    · rcases List.mem_append.mp hy with hy' | hy'
      · exact hacc y hy'
      · rw [List.mem_singleton] at hy'
        subst hy'
        exact hl y (List.mem_cons_self y rest)

lemma dedup_length_le_one {α : Type} [DecidableEq α] (l : List α) (a : α)
    (h : ∀ x ∈ l, x = a) : l.dedup.length ≤ 1 := by
  induction l with
  | nil => simp
  | cons b rest ih =>
    by_cases hmem : b ∈ rest
    · rw [List.dedup_cons_of_mem hmem]
      exact ih (fun x hx => h x (List.mem_cons_of_mem b hx))
    · have hrest : rest = [] := by
        cases rest with
        | nil => rfl
        | cons c cs =>
          exfalso
          apply hmem
          rw [h b (List.mem_cons_self b _), ← h c (List.mem_cons_of_mem b
            (List.mem_cons_self c cs))]
          exact List.mem_cons_self c cs
      subst hrest
      simp

/-- A statement as held by the consensus page's local store
(`src/routes/consensus/index.tsx`): an id, the text, and the logged-in
user's own vote, null when not cast. -/
structure PageStatement where
  id : String
  text : String
  myVote : Option Int
deriving DecidableEq, Repr

/-- The vote list the consensus page passes to analyzeConsensus
(`src/routes/consensus/index.tsx`, `analyze`): statements with a cast vote,
each mapped to an event whose user id is the session DID or "anonymous". -/
def pageVotes (did : Option String) (stmts : List PageStatement) : List VoteEvent :=
  (stmts.filter (fun s => s.myVote.isSome)).map
    (fun s => { user_id := did.getD "anonymous"
                statement_id := s.id
                value := s.myVote.getD 0 })

/-- The claim C10: every vote event built by the consensus page carries one
and the same participant identifier (the session DID, or "anonymous" when
logged out), so each analysis sees at most one participant and
total_participants is at most 1. -/
theorem page_votes_single_participant (did : Option String)
    (stmts : List PageStatement) :
    (∀ e ∈ pageVotes did stmts, e.user_id = did.getD "anonymous")
    ∧ (analyzeConsensus (pageVotes did stmts)).total_participants ≤ 1 := by
  have hall : ∀ e ∈ pageVotes did stmts, e.user_id = did.getD "anonymous" := by
    intro e he
    unfold pageVotes at he
    rcases List.mem_map.mp he with ⟨s, _, rfl⟩
    rfl
  refine ⟨hall, ?_⟩
  have htot : (analyzeConsensus (pageVotes did stmts)).total_participants
      = (participantsOf (buildMatrix (pageVotes did stmts))).length := rfl
  rw [htot]
  unfold participantsOf
  apply dedup_length_le_one _ (did.getD "anonymous")
  intro x hx
  rcases List.mem_map.mp hx with ⟨y, hy, rfl⟩
  exact foldl_insertVote_pred (fun v => v.user_id = did.getD "anonymous")
    (pageVotes did stmts) [] (by simp) hall y hy

/-- Witness for `page_votes_single_participant`: a logged-in session with
two cast votes and one uncast statement yields at most one participant. -/
theorem page_votes_single_participant_witness :
    (analyzeConsensus (pageVotes (some "did:plc:alice")
      [⟨"1", "t1", some 1⟩, ⟨"2", "t2", some (-1)⟩, ⟨"3", "t3", none⟩])).total_participants
      ≤ 1 :=
  (page_votes_single_participant (some "did:plc:alice")
    [⟨"1", "t1", some 1⟩, ⟨"2", "t2", some (-1)⟩, ⟨"3", "t3", none⟩]).2

/-- The controversy score of the thread sorter, translated from
`getControversy` in `src/routes/post/[uri]/index.tsx`: with total likes and
downvotes t, the score is 0 when t = 0 and t * (1 - 2*|likes/t - 1/2|)
otherwise. -/
def getControversy (likes downs : ℕ) : ℚ :=
  let total := likes + downs
  if total = 0 then 0
  else
    let ratio : ℚ := (likes : ℚ) / (total : ℚ)
    (total : ℚ) * (1 - 2 * |ratio - 1/2|)

lemma getControversy_pos_eq (l d : ℕ) (h : 0 < l + d) :
    getControversy l d
      = ((l : ℚ) + (d : ℚ)) * (1 - 2 * |(l : ℚ) / ((l : ℚ) + (d : ℚ)) - 1/2|) := by
  unfold getControversy
  rw [if_neg (by omega)]
  push_cast
  ring_nf

/-- The claim C3: the Controversial score is 0 when likes + downvotes = 0
and (likes+downvotes) * (1 - 2*|likes/(likes+downvotes) - 1/2|) otherwise,
and the 10/10 item scores strictly higher than the 19/1 item. -/
theorem controversy_spec :
    (∀ l d : ℕ, l + d = 0 → getControversy l d = 0)
    ∧ (∀ l d : ℕ, 0 < l + d → getControversy l d
        = ((l : ℚ) + (d : ℚ)) * (1 - 2 * |(l : ℚ) / ((l : ℚ) + (d : ℚ)) - 1/2|))
    ∧ getControversy 19 1 < getControversy 10 10 := by
  refine ⟨?_, fun l d h => getControversy_pos_eq l d h, ?_⟩
  · intro l d h
    unfold getControversy
    rw [if_pos h]
  · rw [getControversy_pos_eq 19 1 (by norm_num),
      getControversy_pos_eq 10 10 (by norm_num)]
    have h19 : |(19 : ℚ) / ((19 : ℚ) + (1 : ℚ)) - 1/2| = 9/20 := by
      rw [abs_of_nonneg] <;> norm_num
    have h10 : |(10 : ℚ) / ((10 : ℚ) + (10 : ℚ)) - 1/2| = 0 := by
      norm_num
    push_cast
    rw [h19, h10]
    norm_num

/-- Witness for `controversy_spec`: both guarded branches hold at concrete
inputs (0 likes and 0 downvotes; 19 likes and 1 downvote). -/
theorem controversy_spec_witness :
    getControversy 0 0 = 0
    ∧ getControversy 19 1
        = ((19 : ℚ) + (1 : ℚ))
            * (1 - 2 * |(19 : ℚ) / ((19 : ℚ) + (1 : ℚ)) - 1/2|) := by
  refine ⟨controversy_spec.1 0 0 rfl, ?_⟩
  have := controversy_spec.2.1 19 1 (by norm_num)
  push_cast at this
  exact this

/-- A timeline item as seen by the forum feed sorter in
`src/routes/forum/[id]/index.tsx`: the post uri, an optional record
createdAt, and optional engagement counts. -/
structure FeedItem where
  uri : String
  createdAt : Option String
  likeCount : Option ℕ
  replyCount : Option ℕ
  repostCount : Option ℕ
deriving DecidableEq, Repr

/-- A fully-defaulted sortable record, as built by the `sortable` mapping in
`src/routes/forum/[id]/index.tsx` before any sort strategy runs. -/
structure SortableItem where
  uri : String
  created_at : String
  like_count : ℕ
  downvote_count : ℕ
  reply_count : ℕ
  repost_count : ℕ
deriving DecidableEq, Repr

/-- ISO string of the epoch start, the value of `new Date(0).toISOString()`
used as the created_at default. -/
def epochStartISO : String := "1970-01-01T00:00:00.000Z"

/-- Translated from the `sortable` mapping of
`src/routes/forum/[id]/index.tsx` (lines 324-332): a missing createdAt
becomes the epoch-start instant, missing counts become 0, and the downvote
count is looked up in the downvote-count map with default 0. -/
def toSortable (dv : String → Option ℕ) (it : FeedItem) : SortableItem :=
  { uri := it.uri
    created_at := it.createdAt.getD epochStartISO
    like_count := it.likeCount.getD 0
    downvote_count := (dv it.uri).getD 0
    reply_count := it.replyCount.getD 0
    repost_count := it.repostCount.getD 0 }

/-- The claim C8: before any scoring strategy is applied, an absent
created_at is treated as the epoch-start instant and absent like, downvote,
reply and repost counts are each treated as 0. -/
theorem sortable_defaults (dv : String → Option ℕ) (it : FeedItem) :
    (it.createdAt = none → (toSortable dv it).created_at = epochStartISO)
    ∧ (it.likeCount = none → (toSortable dv it).like_count = 0)
    ∧ (dv it.uri = none → (toSortable dv it).downvote_count = 0)
    ∧ (it.replyCount = none → (toSortable dv it).reply_count = 0)
    ∧ (it.repostCount = none → (toSortable dv it).repost_count = 0) := by
  refine ⟨?_, ?_, ?_, ?_, ?_⟩ <;> intro h <;> simp [toSortable, h]

/-- Witness for `sortable_defaults`: a record with every optional field
absent is defaulted to the epoch instant and zero counts. -/
theorem sortable_defaults_witness :
    (toSortable (fun _ => none) ⟨"u", none, none, none, none⟩).created_at
        = epochStartISO
    ∧ (toSortable (fun _ => none) ⟨"u", none, none, none, none⟩).like_count = 0
    ∧ (toSortable (fun _ => none) ⟨"u", none, none, none, none⟩).downvote_count = 0 :=
  ⟨(sortable_defaults (fun _ => none) ⟨"u", none, none, none, none⟩).1 rfl,
   (sortable_defaults (fun _ => none) ⟨"u", none, none, none, none⟩).2.1 rfl,
   (sortable_defaults (fun _ => none) ⟨"u", none, none, none, none⟩).2.2.1 rfl⟩

/-- Lexicographic strict order on character lists, used to compare ISO-8601
timestamp strings and ids the way the host language compares strings. -/
def charListLt : List Char → List Char → Bool
  | [], [] => false
  | [], _ :: _ => true
  | _ :: _, [] => false
  | a :: as, b :: bs =>
    if a < b then true else if b < a then false else charListLt as bs

/-- Strict lexicographic order on strings via their character lists. -/
def strLt (a b : String) : Bool := charListLt a.data b.data

/-- Order used by the Newest strategy, modelled from the spec: created_at
descending (ISO-8601 strings compare lexicographically), ties broken by id
ascending. -/
def newestLE (a b : SortableItem) : Bool :=
  strLt b.created_at a.created_at
  || (a.created_at == b.created_at && (strLt a.uri b.uri || a.uri == b.uri))

instance newestLEDecRel : DecidableRel (fun a b : SortableItem => newestLE a b = true) :=
  fun _ _ => instDecidableEqBool _ _

/-- Modelled from the spec: the Newest ranking (`sortByNewest` of
`src/lib/wasm-bridge.ts`, absent from the source tree) sorts by created_at
descending with ties by id ascending. -/
def sortByNewest (items : List SortableItem) : List SortableItem :=
  List.insertionSort (fun a b => newestLE a b = true) items

/-- Translated from the `sortMode` dispatch switch in
`src/routes/forum/[id]/index.tsx` (lines 341-354): the four sort
implementations are imported functions, so they are parameters here; the
switch selects on the mode string and its default case calls the newest
sort. -/
def sortDispatch (fNewest fTrending fWilson fControversial :
    List SortableItem → List SortableItem) (mode : String)
    (items : List SortableItem) : List SortableItem :=
  match mode with
  | "trending" => fTrending items
  | "wilson" => fWilson items
  | "controversial" => fControversial items
  | _ => fNewest items

/-- Counterexample to the claim C4: dispatching with the unknown strategy
name "bogus" does not reject the call; it silently ranks the two items
under the default (newest) strategy, reordering them by created_at. -/
theorem sort_dispatch_unknown_counterexample :
    sortDispatch sortByNewest sortByNewest sortByNewest sortByNewest "bogus"
      [⟨"a", "2024-01-01T00:00:00.000Z", 0, 0, 0, 0⟩,
       ⟨"b", "2025-01-01T00:00:00.000Z", 0, 0, 0, 0⟩]
    = [⟨"b", "2025-01-01T00:00:00.000Z", 0, 0, 0, 0⟩,
       ⟨"a", "2024-01-01T00:00:00.000Z", 0, 0, 0, 0⟩]
    ∧ sortDispatch sortByNewest sortByNewest sortByNewest sortByNewest "bogus"
        [⟨"a", "2024-01-01T00:00:00.000Z", 0, 0, 0, 0⟩,
         ⟨"b", "2025-01-01T00:00:00.000Z", 0, 0, 0, 0⟩]
      = sortByNewest
          [⟨"a", "2024-01-01T00:00:00.000Z", 0, 0, 0, 0⟩,
           ⟨"b", "2025-01-01T00:00:00.000Z", 0, 0, 0, 0⟩] := by
  constructor <;> decide

/-- The amended claim C4: invoking the ranking dispatch with a strategy
name other than trending, wilson or controversial does not signal an error;
the default switch case silently ranks the items with the newest sort,
whatever the four supplied implementations are. -/
theorem sort_dispatch_unknown_defaults
    (fN fT fW fC : List SortableItem → List SortableItem) (mode : String)
    (items : List SortableItem) (h1 : mode ≠ "trending") (h2 : mode ≠ "wilson")
    (h3 : mode ≠ "controversial") :
    sortDispatch fN fT fW fC mode items = fN items := by
  unfold sortDispatch
  split <;> simp_all

/-- Witness for `sort_dispatch_unknown_defaults`: the mode "hot" is none of
the three named strategies and falls through to the newest sort. -/
theorem sort_dispatch_unknown_defaults_witness :
    sortDispatch sortByNewest sortByNewest sortByNewest sortByNewest "hot"
      [⟨"a", "2024-01-01T00:00:00.000Z", 3, 1, 0, 0⟩]
    = sortByNewest [⟨"a", "2024-01-01T00:00:00.000Z", 3, 1, 0, 0⟩] :=
  sort_dispatch_unknown_defaults sortByNewest sortByNewest sortByNewest
    sortByNewest "hot" [⟨"a", "2024-01-01T00:00:00.000Z", 3, 1, 0, 0⟩]
    (by decide) (by decide) (by decide)

/-- Confidence coefficient of the Wilson lower bound: z = 1.96 for the
fixed 95 percent level. -/
noncomputable def wilsonZ : ℝ := 1.96

lemma wilsonZ_pos : (0 : ℝ) < wilsonZ := by norm_num [wilsonZ]

/-- Modelled from the spec: the Wilson ("Best") score of an item
(`wasm/src/lib.rs` SECTION 2 is not in the source tree). With n = likes +
downvotes, the score is 0 when n = 0, and otherwise the lower bound of the
Wilson confidence interval
(p + z^2/(2n) - z*sqrt((p(1-p) + z^2/(4n))/n)) / (1 + z^2/n) with
p = likes/n. -/
noncomputable def wilsonScore (likes downs : ℕ) : ℝ :=
  if likes + downs = 0 then 0
  else
    ((likes : ℝ) / ((likes : ℝ) + (downs : ℝ))
        + wilsonZ ^ 2 / (2 * ((likes : ℝ) + (downs : ℝ)))
      - wilsonZ * Real.sqrt
          (((likes : ℝ) / ((likes : ℝ) + (downs : ℝ))
              * (1 - (likes : ℝ) / ((likes : ℝ) + (downs : ℝ)))
            + wilsonZ ^ 2 / (4 * ((likes : ℝ) + (downs : ℝ))))
            / ((likes : ℝ) + (downs : ℝ))))
      / (1 + wilsonZ ^ 2 / ((likes : ℝ) + (downs : ℝ)))

/-- Radical appearing in the cleared form of the Wilson lower bound. -/
noncomputable def wilsonRad (l d : ℕ) : ℝ :=
  Real.sqrt (((l : ℝ) + (d : ℝ)) * wilsonZ ^ 2
    * (4 * (l : ℝ) * (d : ℝ) + ((l : ℝ) + (d : ℝ)) * wilsonZ ^ 2))

lemma wilsonScore_eq_form (l d : ℕ) (h : 0 < l + d) :
    wilsonScore l d
      = (((l : ℝ) + (d : ℝ)) * (2 * (l : ℝ) + wilsonZ ^ 2) - wilsonRad l d)
        / (2 * (((l : ℝ) + (d : ℝ)) * (((l : ℝ) + (d : ℝ)) + wilsonZ ^ 2))) := by
  have hN : (0 : ℝ) < (l : ℝ) + (d : ℝ) := by
    have : (0 : ℝ) < ((l + d : ℕ) : ℝ) := by exact_mod_cast h
    push_cast at this
    linarith
  have hz := wilsonZ_pos
  unfold wilsonScore
  rw [if_neg (by omega)]
  have h1 : wilsonZ * Real.sqrt
        (((l : ℝ) / ((l : ℝ) + (d : ℝ))
            * (1 - (l : ℝ) / ((l : ℝ) + (d : ℝ)))
          + wilsonZ ^ 2 / (4 * ((l : ℝ) + (d : ℝ))))
          / ((l : ℝ) + (d : ℝ)))
      = Real.sqrt (wilsonZ ^ 2
          * (((l : ℝ) / ((l : ℝ) + (d : ℝ))
              * (1 - (l : ℝ) / ((l : ℝ) + (d : ℝ)))
            + wilsonZ ^ 2 / (4 * ((l : ℝ) + (d : ℝ))))
            / ((l : ℝ) + (d : ℝ)))) := by
    rw [Real.sqrt_mul (sq_nonneg _), Real.sqrt_sq hz.le]
  rw [h1]
  have h2 : wilsonZ ^ 2
        * (((l : ℝ) / ((l : ℝ) + (d : ℝ))
            * (1 - (l : ℝ) / ((l : ℝ) + (d : ℝ)))
          + wilsonZ ^ 2 / (4 * ((l : ℝ) + (d : ℝ))))
          / ((l : ℝ) + (d : ℝ)))
      = (((l : ℝ) + (d : ℝ)) * wilsonZ ^ 2
          * (4 * (l : ℝ) * (d : ℝ) + ((l : ℝ) + (d : ℝ)) * wilsonZ ^ 2))
        / (2 * ((l : ℝ) + (d : ℝ)) ^ 2) ^ 2 := by
    field_simp
    ring
  rw [h2]
  have h3 : Real.sqrt ((((l : ℝ) + (d : ℝ)) * wilsonZ ^ 2
        * (4 * (l : ℝ) * (d : ℝ) + ((l : ℝ) + (d : ℝ)) * wilsonZ ^ 2))
        / (2 * ((l : ℝ) + (d : ℝ)) ^ 2) ^ 2)
      = wilsonRad l d / (2 * ((l : ℝ) + (d : ℝ)) ^ 2) := by
    rw [Real.sqrt_div (by positivity), Real.sqrt_sq (by positivity)]
    rfl
  rw [h3]
  have hden : (1 : ℝ) + wilsonZ ^ 2 / ((l : ℝ) + (d : ℝ)) ≠ 0 := by positivity
  field_simp
  ring

lemma wilsonRad_sq (l d : ℕ) :
    wilsonRad l d ^ 2
      = ((l : ℝ) + (d : ℝ)) * wilsonZ ^ 2
          * (4 * (l : ℝ) * (d : ℝ) + ((l : ℝ) + (d : ℝ)) * wilsonZ ^ 2) :=
  Real.sq_sqrt (by positivity)

lemma wilsonRad_nonneg (l d : ℕ) : 0 ≤ wilsonRad l d := Real.sqrt_nonneg _

lemma wilsonRad_le (l d : ℕ) :
    wilsonRad l d ≤ ((l : ℝ) + (d : ℝ)) * (2 * (l : ℝ) + wilsonZ ^ 2) := by
  have harg : ((l : ℝ) + (d : ℝ)) * wilsonZ ^ 2
        * (4 * (l : ℝ) * (d : ℝ) + ((l : ℝ) + (d : ℝ)) * wilsonZ ^ 2)
      ≤ (((l : ℝ) + (d : ℝ)) * (2 * (l : ℝ) + wilsonZ ^ 2)) ^ 2 := by
    have key : (0 : ℝ) ≤ 4 * (l : ℝ) ^ 2 * ((l : ℝ) + (d : ℝ))
        * (((l : ℝ) + (d : ℝ)) + wilsonZ ^ 2) := by positivity
    nlinarith [key]
  calc wilsonRad l d
      ≤ Real.sqrt ((((l : ℝ) + (d : ℝ)) * (2 * (l : ℝ) + wilsonZ ^ 2)) ^ 2) :=
        Real.sqrt_le_sqrt harg
    _ = ((l : ℝ) + (d : ℝ)) * (2 * (l : ℝ) + wilsonZ ^ 2) :=
        Real.sqrt_sq (by positivity)

lemma wilsonRad_ge (l d : ℕ) :
    ((l : ℝ) + (d : ℝ)) * wilsonZ ^ 2 ≤ wilsonRad l d := by
  have harg : (((l : ℝ) + (d : ℝ)) * wilsonZ ^ 2) ^ 2
      ≤ ((l : ℝ) + (d : ℝ)) * wilsonZ ^ 2
          * (4 * (l : ℝ) * (d : ℝ) + ((l : ℝ) + (d : ℝ)) * wilsonZ ^ 2) := by
    have key : (0 : ℝ) ≤ 4 * ((l : ℝ) + (d : ℝ)) * wilsonZ ^ 2 * (l : ℝ) * (d : ℝ) := by
      positivity
    nlinarith [key]
  calc ((l : ℝ) + (d : ℝ)) * wilsonZ ^ 2
      = Real.sqrt ((((l : ℝ) + (d : ℝ)) * wilsonZ ^ 2) ^ 2) :=
        (Real.sqrt_sq (by positivity)).symm
    _ ≤ wilsonRad l d := Real.sqrt_le_sqrt harg

lemma wilson_quad (l d : ℕ) (h : 0 < l + d) :
    ((l : ℝ) + (d : ℝ)) * (((l : ℝ) + (d : ℝ)) + wilsonZ ^ 2)
        * wilsonScore l d ^ 2
      - ((l : ℝ) + (d : ℝ)) * (2 * (l : ℝ) + wilsonZ ^ 2) * wilsonScore l d
      + (l : ℝ) ^ 2 = 0 := by
  have hN : (0 : ℝ) < (l : ℝ) + (d : ℝ) := by
    have : (0 : ℝ) < ((l + d : ℕ) : ℝ) := by exact_mod_cast h
    push_cast at this
    linarith
  rw [wilsonScore_eq_form l d h]
  have hsq := wilsonRad_sq l d
  have hden : (2 : ℝ) * (((l : ℝ) + (d : ℝ)) * (((l : ℝ) + (d : ℝ)) + wilsonZ ^ 2))
      ≠ 0 := by positivity
  field_simp
  ring_nf
  simp only [hsq]
  ring

lemma wilson_nonneg (l d : ℕ) : 0 ≤ wilsonScore l d := by
  rcases Nat.eq_zero_or_pos (l + d) with h | h
  · unfold wilsonScore
    rw [if_pos h]
  · rw [wilsonScore_eq_form l d h]
    apply div_nonneg
    · have := wilsonRad_le l d
      linarith
    · have hN : (0 : ℝ) < (l : ℝ) + (d : ℝ) := by
        have : (0 : ℝ) < ((l + d : ℕ) : ℝ) := by exact_mod_cast h
        push_cast at this
        linarith
      positivity

lemma wilson_upper (l d : ℕ) (h : 0 < l + d) :
    wilsonScore l d * (((l : ℝ) + (d : ℝ)) + wilsonZ ^ 2) ≤ (l : ℝ) := by
  have hN : (0 : ℝ) < (l : ℝ) + (d : ℝ) := by
    have : (0 : ℝ) < ((l + d : ℕ) : ℝ) := by exact_mod_cast h
    push_cast at this
    linarith
  rw [wilsonScore_eq_form l d h]
  rw [div_mul_eq_mul_div, div_le_iff (by positivity)]
  have hge := wilsonRad_ge l d
  have hprod : (0 : ℝ) ≤ (((l : ℝ) + (d : ℝ)) + wilsonZ ^ 2)
      * (wilsonRad l d - ((l : ℝ) + (d : ℝ)) * wilsonZ ^ 2) :=
    mul_nonneg (by positivity) (by linarith)
  nlinarith [hprod]

lemma wilson_vertex (l d : ℕ) (h : 0 < l + d) :
    2 * (((l : ℝ) + (d : ℝ)) * (((l : ℝ) + (d : ℝ)) + wilsonZ ^ 2))
        * wilsonScore l d
      ≤ ((l : ℝ) + (d : ℝ)) * (2 * (l : ℝ) + wilsonZ ^ 2) := by
  have hN : (0 : ℝ) < (l : ℝ) + (d : ℝ) := by
    have : (0 : ℝ) < ((l + d : ℕ) : ℝ) := by exact_mod_cast h
    push_cast at this
    linarith
  have hu := wilson_upper l d h
  have h2 := mul_le_mul_of_nonneg_left hu
    (by linarith : (0 : ℝ) ≤ 2 * ((l : ℝ) + (d : ℝ)))
  nlinarith [h2, sq_nonneg wilsonZ, hN]

lemma quad_left_le (a b c x y : ℝ) (ha : 0 < a)
    (hx : 2 * a * x + b ≤ 0) (hy : 2 * a * y + b ≤ 0)
    (hyq : a * y ^ 2 + b * y + c = 0) (hxq : 0 ≤ a * x ^ 2 + b * x + c) :
    x ≤ y := by
  by_contra hlt
  push_neg at hlt
  have ht : 0 < x - y := by linarith
  have h1 : 0 ≤ (x - y) * (-(2 * a * x + b)) := mul_nonneg ht.le (by linarith)
  have h2 : 0 ≤ (x - y) * (a * (x + y) + b) := by nlinarith [hxq, hyq]
  have h3 : 0 ≤ -(a * (x - y) ^ 2) := by nlinarith [h1, h2]
  nlinarith [mul_pos ha (mul_pos ht ht), h3]

lemma wilson_step_likes (l d : ℕ) : wilsonScore l d ≤ wilsonScore (l + 1) d := by
  rcases Nat.eq_zero_or_pos (l + d) with h0 | h0
  · have hl : l = 0 := by omega
    have hd : d = 0 := by omega
    subst hl
    subst hd
    have hz : wilsonScore 0 0 = 0 := by
      unfold wilsonScore
      exact if_pos rfl
    rw [hz]
    exact wilson_nonneg 1 0
  · have hN : (0 : ℝ) < (l : ℝ) + (d : ℝ) := by
      have : (0 : ℝ) < ((l + d : ℕ) : ℝ) := by exact_mod_cast h0
      push_cast at this
      linarith
    have hl : (l : ℝ) ≤ (l : ℝ) + (d : ℝ) := by
      have := Nat.cast_nonneg (α := ℝ) d
      linarith
    have hQ : (0 : ℝ) < wilsonZ ^ 2 := pow_pos wilsonZ_pos 2
    have hq_y := wilson_quad (l + 1) d (by omega)
    have hvert_y := wilson_vertex (l + 1) d (by omega)
    push_cast at hq_y hvert_y
    have hq_x := wilson_quad l d h0
    have hup_x := wilson_upper l d h0
    have hnn_x := wilson_nonneg l d
    have hxQ : (0 : ℝ) ≤ wilsonScore l d * wilsonZ ^ 2 := mul_nonneg hnn_x hQ.le
    have hx1 : wilsonScore l d ≤ 1 := by nlinarith [hup_x, hN, hl, hQ, hnn_x, hxQ]
    apply quad_left_le
      ((((l : ℝ) + 1) + (d : ℝ)) * ((((l : ℝ) + 1) + (d : ℝ)) + wilsonZ ^ 2))
      (-((((l : ℝ) + 1) + (d : ℝ)) * (2 * ((l : ℝ) + 1) + wilsonZ ^ 2)))
      (((l : ℝ) + 1) ^ 2)
    · have : (0 : ℝ) < ((l : ℝ) + 1) + (d : ℝ) := by linarith
      nlinarith [this, hQ]
    · -- the smaller score is left of the (l+1, d) vertex
      have key : 2 * ((((l : ℝ) + 1) + (d : ℝ)) + wilsonZ ^ 2) * wilsonScore l d
          ≤ 2 * ((l : ℝ) + 1) + wilsonZ ^ 2 := by
        linarith [hup_x, hx1, hQ.le, hxQ]
      have key2 := mul_le_mul_of_nonneg_left key
        (by linarith : (0 : ℝ) ≤ ((l : ℝ) + 1) + (d : ℝ))
      linarith [key2]
    · linarith [hvert_y]
    · linear_combination hq_y
    · have hbr : (0 : ℝ) ≤ 2 * (l : ℝ) + 1
          - (2 * ((l : ℝ) + (d : ℝ)) + 1 + wilsonZ ^ 2) * wilsonScore l d := by
        linarith [hup_x, hx1, hxQ]
      have hprod : (0 : ℝ) ≤ (1 - wilsonScore l d)
          * (2 * (l : ℝ) + 1
              - (2 * ((l : ℝ) + (d : ℝ)) + 1 + wilsonZ ^ 2) * wilsonScore l d) :=
        mul_nonneg (by linarith) hbr
      nlinarith [hq_x, hprod]

lemma wilson_step_downs (l d : ℕ) : wilsonScore l (d + 1) ≤ wilsonScore l d := by
  rcases Nat.eq_zero_or_pos (l + d) with h0 | h0
  · have hl : l = 0 := by omega
    have hd : d = 0 := by omega
    subst hl
    subst hd
    have hz : wilsonScore 0 0 = 0 := by
      unfold wilsonScore
      exact if_pos rfl
    rw [hz]
    have hup := wilson_upper 0 1 (by omega)
    have hnn := wilson_nonneg 0 1
    have hQ : (0 : ℝ) < wilsonZ ^ 2 := pow_pos wilsonZ_pos 2
    push_cast at hup
    linarith [hup, hnn, mul_nonneg hnn hQ.le]
  · have hN : (0 : ℝ) < (l : ℝ) + (d : ℝ) := by
      have : (0 : ℝ) < ((l + d : ℕ) : ℝ) := by exact_mod_cast h0
      push_cast at this
      linarith
    have hQ : (0 : ℝ) < wilsonZ ^ 2 := pow_pos wilsonZ_pos 2
    have hq_y := wilson_quad l d h0
    have hvert_y := wilson_vertex l d h0
    have hq_x := wilson_quad l (d + 1) (by omega)
    have hup_x := wilson_upper l (d + 1) (by omega)
    have hnn_x := wilson_nonneg l (d + 1)
    push_cast at hq_x hup_x
    have hxQ : (0 : ℝ) ≤ wilsonScore l (d + 1) * wilsonZ ^ 2 :=
      mul_nonneg hnn_x hQ.le
    apply quad_left_le
      (((l : ℝ) + (d : ℝ)) * (((l : ℝ) + (d : ℝ)) + wilsonZ ^ 2))
      (-(((l : ℝ) + (d : ℝ)) * (2 * (l : ℝ) + wilsonZ ^ 2)))
      ((l : ℝ) ^ 2)
    · nlinarith [hN, hQ]
    · -- the (l, d+1) score is left of the (l, d) vertex
      have key : 2 * (((l : ℝ) + (d : ℝ)) + wilsonZ ^ 2) * wilsonScore l (d + 1)
          ≤ 2 * (l : ℝ) + wilsonZ ^ 2 := by
        linarith [hup_x, hnn_x, hQ.le, hxQ]
      have key2 := mul_le_mul_of_nonneg_left key (le_of_lt hN)
      linarith [key2]
    · linarith [hvert_y]
    · linear_combination hq_y
    · have hbr : (0 : ℝ) ≤ 2 * (l : ℝ) + wilsonZ ^ 2
          - (2 * ((l : ℝ) + (d : ℝ)) + 1 + wilsonZ ^ 2) * wilsonScore l (d + 1) := by
        linarith [hup_x, hnn_x, hxQ]
      have hprod : (0 : ℝ) ≤ wilsonScore l (d + 1)
          * (2 * (l : ℝ) + wilsonZ ^ 2
              - (2 * ((l : ℝ) + (d : ℝ)) + 1 + wilsonZ ^ 2) * wilsonScore l (d + 1)) :=
        mul_nonneg hnn_x hbr
      nlinarith [hq_x, hprod]

lemma wilson_mono_likes (l l' d : ℕ) (h : l ≤ l') :
    wilsonScore l d ≤ wilsonScore l' d := by
  induction l', h using Nat.le_induction with
  | base => exact le_refl _
  | succ k hk ih => exact le_trans ih (wilson_step_likes k d)

lemma wilson_anti_downs (l d d' : ℕ) (h : d ≤ d') :
    wilsonScore l d' ≤ wilsonScore l d := by
  induction d', h using Nat.le_induction with
  | base => exact le_refl _
  | succ k hk ih => exact le_trans (wilson_step_downs l k) ih

/-- The claim C2: the Wilson ("Best") score is 0 when n = likes + downvotes
is 0 and otherwise equals the Wilson lower confidence bound with z = 1.96;
it is monotonically non-decreasing in likes for fixed downvotes and
monotonically non-increasing in downvotes for fixed likes. -/
theorem wilson_score_spec :
    wilsonScore 0 0 = 0
    ∧ (∀ l d : ℕ, 0 < l + d → wilsonScore l d
        = ((l : ℝ) / ((l : ℝ) + (d : ℝ))
              + wilsonZ ^ 2 / (2 * ((l : ℝ) + (d : ℝ)))
            - wilsonZ * Real.sqrt
                (((l : ℝ) / ((l : ℝ) + (d : ℝ))
                    * (1 - (l : ℝ) / ((l : ℝ) + (d : ℝ)))
                  + wilsonZ ^ 2 / (4 * ((l : ℝ) + (d : ℝ))))
                  / ((l : ℝ) + (d : ℝ))))
          / (1 + wilsonZ ^ 2 / ((l : ℝ) + (d : ℝ))))
    ∧ (∀ l l' d : ℕ, l ≤ l' → wilsonScore l d ≤ wilsonScore l' d)
    ∧ (∀ l d d' : ℕ, d ≤ d' → wilsonScore l d' ≤ wilsonScore l d)
    ∧ wilsonZ = 1.96 := by
  refine ⟨by unfold wilsonScore; exact if_pos rfl, ?_,
    wilson_mono_likes, wilson_anti_downs, rfl⟩
  intro l d h
  unfold wilsonScore
  rw [if_neg (by omega)]

/-- Witness for `wilson_score_spec`: the guarded formula holds at one like
and one downvote, more likes do not lower the score (3 versus 5 likes at
one downvote), and more downvotes do not raise it (2 versus 4 downvotes at
3 likes). -/
theorem wilson_score_spec_witness :
    wilsonScore 1 1
      = (((1 : ℕ) : ℝ) / (((1 : ℕ) : ℝ) + ((1 : ℕ) : ℝ))
            + wilsonZ ^ 2 / (2 * (((1 : ℕ) : ℝ) + ((1 : ℕ) : ℝ)))
          - wilsonZ * Real.sqrt
              ((((1 : ℕ) : ℝ) / (((1 : ℕ) : ℝ) + ((1 : ℕ) : ℝ))
                  * (1 - ((1 : ℕ) : ℝ) / (((1 : ℕ) : ℝ) + ((1 : ℕ) : ℝ)))
                + wilsonZ ^ 2 / (4 * (((1 : ℕ) : ℝ) + ((1 : ℕ) : ℝ))))
                / (((1 : ℕ) : ℝ) + ((1 : ℕ) : ℝ))))
        / (1 + wilsonZ ^ 2 / (((1 : ℕ) : ℝ) + ((1 : ℕ) : ℝ)))
    ∧ wilsonScore 3 1 ≤ wilsonScore 5 1
    ∧ wilsonScore 3 4 ≤ wilsonScore 3 2 :=
  ⟨wilson_score_spec.2.1 1 1 (by norm_num),
   wilson_score_spec.2.2.1 3 5 1 (by norm_num),
   wilson_score_spec.2.2.2.1 3 2 4 (by norm_num)⟩
